import Mathlib

/-!
Shallow embedding of `src/c_string.c` (mruby/c String object).

A string object's storage is a null-terminated byte buffer; we model a
buffer as a `List Nat` of byte values.  The apparent length of a string is
never stored: the C code recomputes it with `strlen`, i.e. by scanning for
the first zero byte, and we do the same (`strlen` below).

Allocation model: `mrbc_alloc` returns fresh, uninitialized memory; we model
an uninitialized byte as the distinguished `junkByte` (so that no theorem can
accidentally rely on the contents of memory the C code never wrote).
`mrbc_realloc` preserves the existing content.  When it grows the block the
new tail is uninitialized; when it shrinks, the bytes past the new size are
still physically present in memory (the allocator does not erase them), and
`c_string_insert` in fact still reads them through its tail `memmove`, so the
model keeps them.
-/

/-- Byte value of uninitialized (freshly allocated) memory.  Chosen nonzero
so that no proof can depend on uninitialized memory reading as a
terminator. -/
def junkByte : Nat := 170

/-- Model of `mrbc_alloc(vm, n)`: `n` fresh uninitialized bytes (the
allocator is assumed to succeed here; the failure path is modelled
separately by `mrbc_string_new_heap`). -/
def mrbc_alloc (n : Nat) : List Nat := List.replicate n junkByte

/-- Model of `mrbc_realloc(vm, buf, n)`: content is preserved; a grown tail
is uninitialized; on a shrink the trailing bytes stay in memory (not erased),
which matters because `c_string_insert` reads the old tail after shrinking. -/
def mrbc_realloc (buf : List Nat) (n : Nat) : List Nat :=
  buf ++ List.replicate (n - buf.length) junkByte

/-- C `strlen`: the number of bytes before the first zero byte. -/
def strlen (buf : List Nat) : Nat := (buf.takeWhile (· ≠ 0)).length

/-- A byte list with no embedded terminator: the canonical content of a
string buffer `s ++ [0]`. -/
def NoNul (s : List Nat) : Prop := ∀ b ∈ s, b ≠ 0

instance (s : List Nat) : Decidable (NoNul s) := by
  unfold NoNul; infer_instance

/-- In-bounds `memcpy` into `buf` at offset `dst` from an external byte
sequence: the bytes `[dst, dst + bytes.length)` are overwritten.  All uses
below are in bounds (`dst + bytes.length ≤ buf.length`). -/
def writeBytes (buf : List Nat) (dst : Nat) (bytes : List Nat) : List Nat :=
  buf.take dst ++ bytes ++ buf.drop (dst + bytes.length)

/-- C `memmove(buf+dst, buf+src, n)` within one buffer: the source region is
read in full before any byte is written, which is exactly the overlap-safe
guarantee `memmove` provides. -/
def memmove (buf : List Nat) (dst src n : Nat) : List Nat :=
  writeBytes buf dst ((buf.drop src).take n)

/-- Model of `mrbc_string_new(vm, src, len)` on the allocator-success path:
allocate `len+1` bytes; with `src == NULL` write only the terminator at
offset 0; otherwise `memcpy` `len` bytes from `src` and terminate at `len`.
The returned value is the new string's buffer. -/
def mrbc_string_new (src : Option (List Nat)) (len : Nat) : List Nat :=
  let buf := mrbc_alloc (len + 1)
  match src with
  | none => buf.set 0 0
  | some s => (writeBytes buf 0 (s.take len)).set len 0

/-- Model of `mrbc_string_new_cstr(vm, src)`: length is obtained by scanning
`src` for its terminator (`strlen`), then delegates to `mrbc_string_new`. -/
def mrbc_string_new_cstr (src : Option (List Nat)) : List Nat :=
  mrbc_string_new src (match src with | some s => strlen s | none => 0)

/-- The index adjustment of `c_string_insert`: `if (nth < 0) nth = len1 + nth`. -/
def adjIdx (len1 : Int) (nth0 : Int) : Int :=
  if nth0 < 0 then len1 + nth0 else nth0

/-- The span clamp of `c_string_insert`:
`if (len > len1 - nth) len = len1 - nth`. -/
def clampSpan (len1 nth len0 : Int) : Int :=
  if len0 > len1 - nth then len1 - nth else len0

/-- Model of the core of `c_string_insert` (method `[]=`) after argument
decoding: receiver buffer `buf`, requested index `nth0`, requested span
`len0` (the two-argument form `self[nth] = val` passes `len0 = 1`), and the
replacement's buffer `vbuf`.  `none` models the `IndexError` path, which
prints and returns without touching the buffer; `some` returns the
receiver's buffer after the realloc / tail `memmove` / `memcpy` /
terminator-store sequence of the C code. -/
def c_string_insert (buf : List Nat) (nth0 len0 : Int) (vbuf : List Nat) :
    Option (List Nat) :=
  let len1 : Int := strlen buf
  let len2 : Int := strlen vbuf
  let nth : Int := adjIdx len1 nth0
  let len : Int := clampSpan len1 nth len0
  if nth < 0 ∨ nth > len1 ∨ len < 0 then
    none
  else
    let str := mrbc_realloc buf (len1 + len2 - len + 1).toNat
    let str := memmove str (nth + len2).toNat (nth + len).toNat
        (len1 - nth - len).toNat
    let str := writeBytes str nth.toNat (vbuf.take len2.toNat)
    some (str.set (len1 + len2 - len).toNat 0)

/-- Model of the `argc == 1` branch of `c_string_slice` (method `[]`, single
index): result is `some` of the freshly built one-byte string's buffer, or
`none` for the `nil` return. -/
def c_string_slice1 (buf : List Nat) (idx0 : Int) : Option (List Nat) :=
  let len : Int := strlen buf
  let ch : Nat :=
    if 0 ≤ idx0 then
      if idx0 < len then buf.getD idx0.toNat 0 else 0
    else
      if 0 ≤ idx0 + len then buf.getD (idx0 + len).toNat 0 else 0
  if 0 < ch then
    some (((mrbc_string_new none 1).set 0 ch).set 1 0)
  else
    none

/-- Model of the `argc == 2` branch of `c_string_slice` (method `[]`, index
plus span): builds the new string from the pointer `cstr(v) + idx` with the
clamped length `rlen`, or returns `nil` (`none`). -/
def c_string_slice2 (buf : List Nat) (idx0 span : Int) : Option (List Nat) :=
  let len : Int := strlen buf
  let idx : Int := if idx0 < 0 then idx0 + len else idx0
  if 0 ≤ idx then
    let rlen : Int := if span < len - idx then span else len - idx
    if 0 ≤ rlen then
      some (mrbc_string_new (some (buf.drop idx.toNat)) rlen.toNat)
    else
      none
  else
    none

/-- A register-slot value as far as the string operators inspect it: its
type tag, plus the buffer (for `MRB_TT_STRING`) or the integer payload (for
`MRB_TT_FIXNUM`). -/
inductive RVal where
  | strv (buf : List Nat)
  | fixnum (i : Int)
  | nilv
  | boolv (b : Bool)
  | otherv
deriving DecidableEq

/-- The `tt == MRB_TT_STRING` test. -/
def RVal.isStringV : RVal → Bool
  | .strv _ => true
  | _ => false

/-- Model of `c_string_append` (method `<<`) on the realloc-success path:
reallocates to `len1 + len2 + 1` where `len2` is the operand's scan length
for a string operand and `1` otherwise; then copies the operand's bytes plus
terminator (string operand), or stores the low byte of the integer followed
by a terminator (fixnum operand), or stores nothing (any other tag). -/
def c_string_append (buf : List Nat) (v2 : RVal) : List Nat :=
  let len1 : Nat := strlen buf
  let len2 : Nat := match v2 with | .strv b => strlen b | _ => 1
  let str := mrbc_realloc buf (len1 + len2 + 1)
  match v2 with
  | .strv b => writeBytes str len1 (b.take (len2 + 1))
  | .fixnum i => (str.set len1 (i % 256).toNat).set (len1 + 1) 0
  | _ => str

/-- Model of `c_string_add` (method `+`).  The result is the pair of the
left operand's buffer after the call and the value written into the result
slot (`none` when the function returns without `SET_RETURN`, i.e. on the
type-mismatch path, which only prints a diagnostic).  The success path
builds a brand-new buffer of `len1 + len2 + 1` bytes from the two scans. -/
def c_string_add (v0buf : List Nat) (v1 : RVal) :
    List Nat × Option (List Nat) :=
  match v1 with
  | .strv s2 =>
    let len1 : Nat := strlen v0buf
    let len2 : Nat := strlen s2
    let value := mrbc_string_new none (len1 + len2)
    let value := writeBytes value 0 (v0buf.take len1)
    let value := writeBytes value len1 (s2.take (len2 + 1))
    (v0buf, some value)
  | _ => (v0buf, none)

/-- A byte read through a plain C `char` (signed on the modelled ABI) and
widened to `int`: values `0..127` are unchanged, values `128..255` are
sign-extended to `b - 256`.  `c_string_slice` and `c_string_append` go out
of their way to read through `uint8_t`; `c_string_ord` does not. -/
def charOfByte (b : Nat) : Int :=
  if b < 128 then (b : Int) else (b : Int) - 256

/-- Model of `c_string_ord` (method `ord`): `int i = MRBC_STRING_CSTR(v)[0];`
reads the first buffer byte through plain `char`. -/
def c_string_ord (buf : List Nat) : Int :=
  charOfByte (buf.getD 0 0)

/-- Allocator heap for the allocation-lifetime view of `mrbc_string_new`:
the multiset of live allocation ids and a fresh-id counter. -/
structure AllocHeap where
  live : List Nat
  next : Nat
deriving DecidableEq

/-- One `mrbc_alloc` call at lifetime granularity; `ok` says whether the
allocator succeeds (`NULL` return is `none`, heap untouched). -/
def heapAlloc (ok : Bool) (h : AllocHeap) : Option Nat × AllocHeap :=
  if ok then (some h.next, ⟨h.next :: h.live, h.next + 1⟩) else (none, h)

/-- One `mrbc_raw_free` call: the id is removed from the live set. -/
def heapFree (p : Nat) (h : AllocHeap) : AllocHeap :=
  ⟨h.live.erase p, h.next⟩

/-- Allocation-lifetime view of `mrbc_string_new`: first the handle is
allocated (outcome `hOk`), then the buffer (outcome `bOk`).  The first
component is `value.handle` as returned (`none` models `value.handle ==
NULL`, the ENOMEM sentinel); the second is the heap after the call.  On the
partial-failure path the code frees the handle before returning. -/
def mrbc_string_new_heap (hOk bOk : Bool) (h : AllocHeap) :
    Option Nat × AllocHeap :=
  match heapAlloc hOk h with
  | (none, h1) => (none, h1)
  | (some hp, h1) =>
    match heapAlloc bOk h1 with
    | (none, h2) => (none, heapFree hp h2)
    | (some _, h2) => (some hp, h2)

/-! ### Basic facts about `strlen` and the buffer primitives -/

theorem strlen_nil : strlen [] = 0 := rfl

theorem strlen_cons (b : Nat) (bs : List Nat) :
    strlen (b :: bs) = if b = 0 then 0 else strlen bs + 1 := by
  by_cases hb : b = 0 <;> simp [strlen, List.takeWhile, hb]

theorem strlen_le (buf : List Nat) : strlen buf ≤ buf.length := by
  induction buf with
  | nil => simp [strlen_nil]
  | cons b bs ih =>
    rw [strlen_cons]
    by_cases hb : b = 0
    · simp [hb]
    · simp [hb]; omega

theorem strlen_prefix_nul (s t : List Nat) (hs : NoNul s) :
    strlen (s ++ 0 :: t) = s.length := by
  induction s with
  | nil => simp [strlen_cons]
  | cons b bs ih =>
    have hb : b ≠ 0 := hs b (by simp)
    have hbs : NoNul bs := fun x hx => hs x (by simp [hx])
    rw [List.cons_append, strlen_cons, if_neg hb, ih hbs]
    simp

theorem strlen_content (s : List Nat) (hs : NoNul s) :
    strlen (s ++ [0]) = s.length :=
  strlen_prefix_nul s [] hs

theorem getD_lt_strlen_pos (buf : List Nat) (i : Nat) (h : i < strlen buf) :
    0 < buf.getD i 0 := by
  induction buf generalizing i with
  | nil => simp [strlen_nil] at h
  | cons b bs ih =>
    rw [strlen_cons] at h
    by_cases hb : b = 0
    · simp [hb] at h
    · cases i with
      | zero => simpa [List.getD] using Nat.pos_of_ne_zero hb
      | succ j =>
        have hj : j < strlen bs := by simp [hb] at h; omega
        simpa [List.getD] using ih j hj

theorem set_append_len (C : List Nat) (n b x : Nat) (B : List Nat)
    (h : C.length = n) : (C ++ b :: B).set n x = C ++ x :: B := by
  rw [List.set_append, if_neg (by omega)]
  subst h
  simp [List.set]

theorem set2_tail (s : List Nat) (b x y : Nat) :
    ((s ++ [0, b]).set s.length x).set (s.length + 1) y = s ++ [x, y] := by
  induction s with
  | nil => rfl
  | cons a s ih => simp [List.set, ih]

theorem getD_append_len (xs z : List Nat) (a d : Nat) :
    (xs ++ a :: z).getD xs.length d = a := by
  rw [List.getD_append_right _ _ _ _ le_rfl]
  simp [List.getD]

theorem mrbc_string_new_none_eval (n : Nat) :
    mrbc_string_new none n = 0 :: List.replicate n junkByte := by
  unfold mrbc_string_new mrbc_alloc
  rw [List.replicate_succ]
  simp [List.set]

theorem mrbc_string_new_some_eval (s : List Nat) (n : Nat) (h : n ≤ s.length) :
    mrbc_string_new (some s) n = s.take n ++ [0] := by
  unfold mrbc_string_new mrbc_alloc writeBytes
  have hlen : (s.take n).length = n := by simp [h]
  simp only [List.take_zero, List.nil_append, hlen, Nat.zero_add,
    List.drop_replicate]
  rw [show n + 1 - n = 1 by omega,
    show List.replicate 1 junkByte = junkByte :: [] from rfl,
    set_append_len _ _ _ _ _ hlen]

/-! ### C6 -/

/-- C6: for every byte sequence `b` of length `n`, `mrbc_string_new`
(allocator succeeding) yields a buffer that is exactly `b` followed by a
terminator at offset `n` (proved for all `b`, in particular those with no
zero byte); with an absent source it yields a buffer of size `n + 1` whose
scan length is `0` (the empty string). -/
theorem mrbc_string_new_spec (b : List Nat) (n : Nat) :
    mrbc_string_new (some b) b.length = b ++ [0] ∧
    (mrbc_string_new none n).length = n + 1 ∧
    strlen (mrbc_string_new none n) = 0 := by
  refine ⟨?_, ?_, ?_⟩
  · rw [mrbc_string_new_some_eval b b.length le_rfl, List.take_length]
  · rw [mrbc_string_new_none_eval]; simp
  · rw [mrbc_string_new_none_eval, strlen_cons]; simp

/-! ### C7 -/

/-- C7: when the handle allocation succeeds but the buffer allocation fails,
`mrbc_string_new` frees the handle and returns the no-handle sentinel, so
the set of live allocations is exactly what it was before the call (no
leak); when the handle allocation itself fails the same sentinel is
returned. -/
theorem mrbc_string_new_heap_spec (h : AllocHeap) (b : Bool) :
    (mrbc_string_new_heap true false h).1 = none ∧
    (mrbc_string_new_heap true false h).2.live = h.live ∧
    (mrbc_string_new_heap false b h).1 = none := by
  refine ⟨?_, ?_, ?_⟩ <;>
    simp [mrbc_string_new_heap, heapAlloc, heapFree, List.erase_cons_head]

/-! ### C8 -/

/-- C8 (amended): `c_string_ord` reads the first byte through a plain
`char`, so it returns the byte value itself only for bytes `0..127` — which
covers the empty string (first byte `0`, result `0`) and `ord("A") = 65` —
while bytes `128..255` come back sign-extended (see the counterexample). -/
theorem c_string_ord_spec (buf : List Nat) (h : buf.getD 0 0 < 128) :
    c_string_ord buf = buf.getD 0 0 := by
  unfold c_string_ord charOfByte
  rw [if_pos h]

theorem c_string_ord_spec_witness :
    ([65, 0] : List Nat).getD 0 0 < 128 ∧
    c_string_ord [65, 0] = (([65, 0] : List Nat).getD 0 0 : Int) :=
  ⟨by decide, c_string_ord_spec [65, 0] (by decide)⟩

/-- C8 counterexample: on a buffer whose first byte is `255`, the `char`
read sign-extends and `ord` returns `-1`, not the byte value `255`. -/
theorem c_string_ord_cex :
    c_string_ord [255, 0] = -1 ∧ c_string_ord [255, 0] ≠ 255 := by decide

/-! ### C9 -/

/-- C9: when the right operand of `c_string_add` is not a string, the
operator only prints a diagnostic: the left buffer is returned byte-for-byte
unchanged and nothing is written into the result slot. -/
theorem c_string_add_frame (v0buf : List Nat) (v1 : RVal)
    (h : v1.isStringV = false) :
    c_string_add v0buf v1 = (v0buf, none) := by
  cases v1 <;> first
    | rfl
    | simp [RVal.isStringV] at h

theorem c_string_add_frame_witness :
    RVal.isStringV (RVal.fixnum 7) = false ∧
    c_string_add [97, 98, 0] (RVal.fixnum 7) = ([97, 98, 0], none) :=
  ⟨by decide, c_string_add_frame [97, 98, 0] (RVal.fixnum 7) (by decide)⟩

/-! ### C5 and C10: `c_string_append` -/

theorem c_string_append_fixnum_def (buf : List Nat) (i : Int) :
    c_string_append buf (RVal.fixnum i) =
      ((mrbc_realloc buf (strlen buf + 1 + 1)).set (strlen buf)
        (i % 256).toNat).set (strlen buf + 1) 0 := rfl

theorem c_string_append_otherv_def (buf : List Nat) :
    c_string_append buf RVal.otherv =
      mrbc_realloc buf (strlen buf + 1 + 1) := rfl

theorem c_string_append_fixnum_eval (s : List Nat) (i : Int) (hs : NoNul s) :
    c_string_append (s ++ [0]) (RVal.fixnum i) =
      s ++ [(i % 256).toNat, 0] := by
  rw [c_string_append_fixnum_def, strlen_content s hs]
  unfold mrbc_realloc
  have hrep : s.length + 1 + 1 - (s ++ [0]).length = 1 := by simp
  rw [hrep, show List.replicate 1 junkByte = [junkByte] from rfl,
    List.append_assoc, show ([0] ++ [junkByte] : List Nat) = [0, junkByte]
      from rfl, set2_tail]

/-- C5 (amended): appending a fixnum grows the buffer by exactly one byte
and stores `operand mod 256` as a raw byte at the old length with a
terminator after it; the apparent (scan) length becomes `L + 1` whenever
that byte is nonzero — an operand that is `0 mod 256` stores a zero byte,
which the terminator scan reads as the end, leaving the apparent length at
`L` (see the counterexample). -/
theorem c_string_append_int (s : List Nat) (i : Int) (hs : NoNul s) :
    c_string_append (s ++ [0]) (RVal.fixnum i) = s ++ [(i % 256).toNat, 0] ∧
    (c_string_append (s ++ [0]) (RVal.fixnum i)).length =
      (s ++ [0]).length + 1 ∧
    (i % 256 ≠ 0 →
      strlen (c_string_append (s ++ [0]) (RVal.fixnum i)) = s.length + 1) := by
  have e := c_string_append_fixnum_eval s i hs
  refine ⟨e, by rw [e]; simp, fun hnz => ?_⟩
  have hb : (i % 256).toNat ≠ 0 := by
    have h0 : 0 ≤ i % 256 := Int.emod_nonneg i (by omega)
    omega
  have hsb : NoNul (s ++ [(i % 256).toNat]) := by
    intro x hx
    rcases List.mem_append.1 hx with hx | hx
    · exact hs x hx
    · simp at hx; omega
  rw [e, show s ++ [(i % 256).toNat, 0] =
      (s ++ [(i % 256).toNat]) ++ [0] by simp,
    strlen_content _ hsb]
  simp

theorem c_string_append_int_witness :
    NoNul [102, 111, 111] ∧
    (c_string_append ([102, 111, 111] ++ [0]) (RVal.fixnum 33) =
        [102, 111, 111] ++ [((33 : Int) % 256).toNat, 0] ∧
      (c_string_append ([102, 111, 111] ++ [0]) (RVal.fixnum 33)).length =
        (([102, 111, 111] : List Nat) ++ [0]).length + 1 ∧
      ((33 : Int) % 256 ≠ 0 →
        strlen (c_string_append ([102, 111, 111] ++ [0]) (RVal.fixnum 33)) =
          ([102, 111, 111] : List Nat).length + 1)) :=
  ⟨by decide, c_string_append_int [102, 111, 111] 33 (by decide)⟩

/-- C5 counterexample: appending the integer `0` (byte value `0 mod 256`)
to `"foo"` stores a zero byte, and the scan length of the result is still
`3`, not `3 + 1` as the claim requires for every integer operand. -/
theorem c_string_append_int_cex :
    c_string_append [102, 111, 111, 0] (RVal.fixnum 0) =
      [102, 111, 111, 0, 0] ∧
    strlen (c_string_append [102, 111, 111, 0] (RVal.fixnum 0)) ≠ 3 + 1 := by
  decide

/-- C10: appending an operand that is neither a string nor a fixnum
reallocates the buffer one byte larger but writes nothing: every byte of the
old buffer, including the terminator at the old length, is unchanged, and
the apparent (scan) length is still `L`. -/
theorem c_string_append_other (s : List Nat) (hs : NoNul s) :
    (c_string_append (s ++ [0]) RVal.otherv).length = (s ++ [0]).length + 1 ∧
    (c_string_append (s ++ [0]) RVal.otherv).take (s.length + 1) = s ++ [0] ∧
    strlen (c_string_append (s ++ [0]) RVal.otherv) = s.length := by
  have e : c_string_append (s ++ [0]) RVal.otherv =
      (s ++ [0]) ++ [junkByte] := by
    rw [c_string_append_otherv_def, strlen_content s hs]
    unfold mrbc_realloc
    have hrep : s.length + 1 + 1 - (s ++ [0]).length = 1 := by simp
    rw [hrep]
    rfl
  refine ⟨by rw [e]; simp, ?_, ?_⟩
  · rw [e, List.take_left' (by simp)]
  · rw [e, List.append_assoc,
      show ([0] ++ [junkByte] : List Nat) = 0 :: [junkByte] from rfl,
      strlen_prefix_nul s [junkByte] hs]

theorem c_string_append_other_witness :
    NoNul [102, 111, 111] ∧
    ((c_string_append ([102, 111, 111] ++ [0]) RVal.otherv).length =
        (([102, 111, 111] : List Nat) ++ [0]).length + 1 ∧
      (c_string_append ([102, 111, 111] ++ [0]) RVal.otherv).take
          (([102, 111, 111] : List Nat).length + 1) =
        [102, 111, 111] ++ [0] ∧
      strlen (c_string_append ([102, 111, 111] ++ [0]) RVal.otherv) =
        ([102, 111, 111] : List Nat).length) :=
  ⟨by decide, c_string_append_other [102, 111, 111] (by decide)⟩

/-! ### C3 and C4: `c_string_slice` -/

theorem one_byte_build (ch : Nat) :
    ((mrbc_string_new none 1).set 0 ch).set 1 0 = [ch, 0] := by
  rw [mrbc_string_new_none_eval]
  rfl

theorem if_lt_min (a b : Int) : (if a < b then a else b) = min a b := by
  rcases lt_or_le a b with h | h
  · rw [if_pos h, min_eq_left h.le]
  · rw [if_neg (not_lt.2 h), min_eq_right h]

/-- C3: the single-index read adds the scan length to a negative index; a
position inside the string (which by the scan-length bound always holds a
nonzero byte) yields a freshly built one-byte string holding that byte, and
every other case — index still negative, index at or past the scan length,
hence also any position whose byte is zero — yields `nil`, not an error.
With `buf = "hello"` this gives `Read(-1) = "o"` and `Read(10) = nil`. -/
theorem c_string_slice1_spec (buf : List Nat) (idx0 : Int) :
    c_string_slice1 buf idx0 =
      if 0 ≤ (if idx0 < 0 then idx0 + (strlen buf : Int) else idx0) ∧
          (if idx0 < 0 then idx0 + (strlen buf : Int) else idx0) <
            (strlen buf : Int) then
        some [buf.getD
          (if idx0 < 0 then idx0 + (strlen buf : Int) else idx0).toNat 0, 0]
      else none := by
  simp only [c_string_slice1, one_byte_build]
  by_cases hneg : idx0 < 0
  · rw [if_neg (show ¬ (0 ≤ idx0) by omega), if_pos hneg]
    by_cases h2 : 0 ≤ idx0 + (strlen buf : Int)
    · rw [if_pos h2]
      have hk : (idx0 + (strlen buf : Int)).toNat < strlen buf := by omega
      have hch := getD_lt_strlen_pos buf _ hk
      have hcond : 0 ≤ idx0 + (strlen buf : Int) ∧
          idx0 + (strlen buf : Int) < (strlen buf : Int) := ⟨h2, by omega⟩
      rw [if_pos hch, if_pos hcond]
    · rw [if_neg h2, if_neg (lt_irrefl 0), if_neg (fun h => h2 h.1)]
  · rw [if_pos (show 0 ≤ idx0 by omega), if_neg hneg]
    by_cases h2 : idx0 < (strlen buf : Int)
    · rw [if_pos h2]
      have hk : idx0.toNat < strlen buf := by omega
      have hch := getD_lt_strlen_pos buf _ hk
      have hcond : 0 ≤ idx0 ∧ idx0 < (strlen buf : Int) := ⟨by omega, h2⟩
      rw [if_pos hch, if_pos hcond]
    · rw [if_neg h2, if_neg (lt_irrefl 0), if_neg (fun h => h2 h.2)]

/-- C4: the range read adds the scan length to a negative index; when the
adjusted index is nonnegative and the clamped length
`min(span, length - index)` is nonnegative it returns a new string of
exactly those bytes starting at the adjusted index (an oversized span is
clamped, not an error), and it returns `nil` when the adjusted index is
still negative or the clamped length is negative.  With `buf = "hello"`
this gives `Range-read(1, 3) = "ell"` and `Range-read(3, 100) = "lo"`. -/
theorem c_string_slice2_spec (buf : List Nat) (idx0 span : Int) :
    c_string_slice2 buf idx0 span =
      if 0 ≤ (if idx0 < 0 then idx0 + (strlen buf : Int) else idx0) ∧
          0 ≤ min span ((strlen buf : Int) -
            (if idx0 < 0 then idx0 + (strlen buf : Int) else idx0)) then
        some ((buf.drop
            (if idx0 < 0 then idx0 + (strlen buf : Int) else idx0).toNat).take
          (min span ((strlen buf : Int) -
            (if idx0 < 0 then idx0 + (strlen buf : Int) else
              idx0))).toNat ++ [0])
      else none := by
  simp only [c_string_slice2, if_lt_min]
  by_cases h1 : 0 ≤ (if idx0 < 0 then idx0 + (strlen buf : Int) else idx0)
  · rw [if_pos h1]
    by_cases h2 : 0 ≤ min span ((strlen buf : Int) -
        (if idx0 < 0 then idx0 + (strlen buf : Int) else idx0))
    · have hcond : (0 ≤ (if idx0 < 0 then idx0 + (strlen buf : Int) else
          idx0)) ∧ 0 ≤ min span ((strlen buf : Int) -
            (if idx0 < 0 then idx0 + (strlen buf : Int) else idx0)) :=
        ⟨h1, h2⟩
      rw [if_pos h2, if_pos hcond]
      have hmr : min span ((strlen buf : Int) -
          (if idx0 < 0 then idx0 + (strlen buf : Int) else idx0)) ≤
            (strlen buf : Int) -
              (if idx0 < 0 then idx0 + (strlen buf : Int) else idx0) :=
        min_le_right _ _
      have hsl := strlen_le buf
      have hle : (min span ((strlen buf : Int) -
          (if idx0 < 0 then idx0 + (strlen buf : Int) else idx0))).toNat ≤
            (buf.drop
              (if idx0 < 0 then idx0 + (strlen buf : Int) else
                idx0).toNat).length := by
        rw [List.length_drop]
        omega
      rw [mrbc_string_new_some_eval _ _ hle]
    · rw [if_neg h2, if_neg (fun h => h2 h.2)]
  · rw [if_neg h1, if_neg (fun h => h1 h.1)]

/-! ### C1 and C2: `c_string_insert` -/

theorem realloc_buf_eval (s : List Nat) (N : Nat) :
    mrbc_realloc (s ++ [0]) N =
      s ++ 0 :: List.replicate (N - (s.length + 1)) junkByte := by
  unfold mrbc_realloc
  rw [List.append_assoc, List.length_append]
  rfl

theorem splice_core (s r : List Nat) (n k : Nat) (hnk : n + k ≤ s.length) :
    ∃ z,
      (writeBytes
          (memmove (mrbc_realloc (s ++ [0]) (s.length - k + r.length + 1))
            (n + r.length) (n + k) (s.length - n - k))
          n r).set (s.length - k + r.length) 0 =
        (s.take n ++ r ++ s.drop (n + k)) ++ 0 :: z := by
  rw [realloc_buf_eval]
  have hpadlen : (List.replicate (s.length - k + r.length + 1 -
      (s.length + 1)) junkByte).length = s.length - k + r.length + 1 -
        (s.length + 1) := List.length_replicate _ _
  have hstr0len : (s ++ 0 :: List.replicate (s.length - k + r.length + 1 -
      (s.length + 1)) junkByte).length =
        s.length + 1 + (s.length - k + r.length + 1 - (s.length + 1)) := by
    rw [List.length_append, List.length_cons, hpadlen]
    omega
  -- the tail bytes read by the memmove are exactly the old content past the
  -- replaced span
  have ht : ((s ++ 0 :: List.replicate (s.length - k + r.length + 1 -
      (s.length + 1)) junkByte).drop (n + k)).take (s.length - n - k) =
        s.drop (n + k) := by
    rw [List.drop_append_of_le_length (by omega),
      List.take_append_of_le_length (by rw [List.length_drop]; omega),
      List.take_of_length_le (by rw [List.length_drop]; omega)]
  rw [memmove, ht]
  -- the memmove writes the tail at its post-splice position
  rw [show writeBytes (s ++ 0 :: List.replicate (s.length - k + r.length +
      1 - (s.length + 1)) junkByte) (n + r.length) (s.drop (n + k)) =
        (s ++ 0 :: List.replicate (s.length - k + r.length + 1 -
          (s.length + 1)) junkByte).take (n + r.length) ++
          s.drop (n + k) ++
          (s ++ 0 :: List.replicate (s.length - k + r.length + 1 -
            (s.length + 1)) junkByte).drop (s.length - k + r.length) by
    unfold writeBytes
    rw [List.length_drop, show n + r.length + (s.length - (n + k)) =
      s.length - k + r.length by omega]]
  -- name the three regions
  have hAlen : ((s ++ 0 :: List.replicate (s.length - k + r.length + 1 -
      (s.length + 1)) junkByte).take (n + r.length)).length =
        n + r.length := by
    rw [List.length_take, hstr0len]
    omega
  have htakenA : ((s ++ 0 :: List.replicate (s.length - k + r.length + 1 -
      (s.length + 1)) junkByte).take (n + r.length)).take n = s.take n := by
    rw [List.take_take, Nat.min_eq_left (by omega),
      List.take_append_of_le_length (by omega)]
  have hBpos : 0 < ((s ++ 0 :: List.replicate (s.length - k + r.length + 1 -
      (s.length + 1)) junkByte).drop (s.length - k + r.length)).length := by
    rw [List.length_drop, hstr0len]
    omega
  obtain ⟨b0, z0, hB⟩ := List.exists_cons_of_ne_nil
    (List.length_pos.mp hBpos)
  refine ⟨z0, ?_⟩
  -- the replacement memcpy
  have h1 : n ≤ (((s ++ 0 :: List.replicate (s.length - k + r.length + 1 -
      (s.length + 1)) junkByte).take (n + r.length)) ++
        s.drop (n + k)).length := by
    rw [List.length_append, hAlen]
    omega
  have h4 : n + r.length ≤ (((s ++ 0 :: List.replicate (s.length - k +
      r.length + 1 - (s.length + 1)) junkByte).take (n + r.length)) ++
        s.drop (n + k)).length := by
    rw [List.length_append, hAlen]
    omega
  rw [writeBytes, hB, List.take_append_of_le_length h1,
    List.take_append_of_le_length (by rw [hAlen]; omega), htakenA,
    List.drop_append_of_le_length h4, List.drop_left' hAlen]
  -- fold the result into prefix ++ written terminator ++ stale tail
  rw [show s.take n ++ r ++ (s.drop (n + k) ++ b0 :: z0) =
      s.take n ++ r ++ s.drop (n + k) ++ b0 :: z0 by simp]
  have hClen : (s.take n ++ r ++ s.drop (n + k)).length =
      s.length - k + r.length := by
    rw [List.length_append, List.length_append, List.length_take,
      Nat.min_eq_left (by omega), List.length_drop]
    omega
  rw [set_append_len _ _ b0 0 z0 hClen]

/-- C2: `c_string_insert` takes its error exit (diagnostic printed, buffer
untouched — modelled by `none`) exactly when, after adding the scan length
to a negative index and clamping the span to `length - index`, the adjusted
index is negative, exceeds the length, or the clamped span is negative. -/
theorem c_string_insert_err (buf vbuf : List Nat) (nth0 len0 : Int) :
    (c_string_insert buf nth0 len0 vbuf = none) ↔
      (adjIdx (strlen buf) nth0 < 0 ∨
        adjIdx (strlen buf) nth0 > (strlen buf : Int) ∨
        clampSpan (strlen buf) (adjIdx (strlen buf) nth0) len0 < 0) := by
  simp only [c_string_insert]
  split
  · simp_all
  · simp_all

/-- C1: on the success path, splicing span `k` at adjusted index `n` with
replacement `r` into a receiver of content `s` (length `L`) produces a
buffer whose first `L - k + length r` bytes are `s.take n ++ r ++
s.drop (n + k)`, whose scan length is exactly `L - k + length r`, and whose
byte at that offset is the terminator.  Instantiated at
`"hello"[1, 2] = "XYZ"` this yields `"hXYZlo"` (see the witness). -/
theorem c_string_insert_ok (s r : List Nat) (nth0 len0 : Int)
    (hs : NoNul s) (hr : NoNul r)
    (h0 : 0 ≤ adjIdx (s.length : Int) nth0)
    (h1 : adjIdx (s.length : Int) nth0 ≤ (s.length : Int))
    (h2 : 0 ≤ clampSpan (s.length : Int) (adjIdx (s.length : Int) nth0)
      len0) :
    ∃ out,
      c_string_insert (s ++ [0]) nth0 len0 (r ++ [0]) = some out ∧
      out.take (s.length -
          (clampSpan (s.length : Int) (adjIdx (s.length : Int) nth0)
            len0).toNat + r.length) =
        s.take (adjIdx (s.length : Int) nth0).toNat ++ r ++
          s.drop ((adjIdx (s.length : Int) nth0).toNat +
            (clampSpan (s.length : Int) (adjIdx (s.length : Int) nth0)
              len0).toNat) ∧
      strlen out = s.length -
        (clampSpan (s.length : Int) (adjIdx (s.length : Int) nth0)
          len0).toNat + r.length ∧
      out.getD (s.length -
        (clampSpan (s.length : Int) (adjIdx (s.length : Int) nth0)
          len0).toNat + r.length) 1 = 0 := by
  have e1 : strlen (s ++ [0]) = s.length := strlen_content s hs
  have e2 : strlen (r ++ [0]) = r.length := strlen_content r hr
  obtain ⟨n, hn⟩ : ∃ nn : Nat, adjIdx (s.length : Int) nth0 = (nn : Int) :=
    ⟨(adjIdx (s.length : Int) nth0).toNat, (Int.toNat_of_nonneg h0).symm⟩
  rw [hn] at h1 h2 ⊢
  have hc_le : clampSpan (s.length : Int) (n : Int) len0 ≤
      (s.length : Int) - (n : Int) := by
    unfold clampSpan
    split <;> omega
  obtain ⟨k, hk⟩ : ∃ kk : Nat,
      clampSpan (s.length : Int) (n : Int) len0 = (kk : Int) :=
    ⟨(clampSpan (s.length : Int) (n : Int) len0).toNat,
      (Int.toNat_of_nonneg h2).symm⟩
  rw [hk] at hc_le ⊢
  have hnL : n ≤ s.length := by exact_mod_cast h1
  have hnkL : n + k ≤ s.length := by omega
  simp only [c_string_insert, e1, e2, hn, hk, Int.toNat_natCast]
  rw [if_neg (by omega : ¬((n : Int) < 0 ∨ (n : Int) > (s.length : Int) ∨
    (k : Int) < 0))]
  rw [show ((s.length : Int) + (r.length : Int) - (k : Int) + 1).toNat =
      s.length - k + r.length + 1 by omega,
    show ((n : Int) + (r.length : Int)).toNat = n + r.length by omega,
    show ((n : Int) + (k : Int)).toNat = n + k by omega,
    show ((s.length : Int) - (n : Int) - (k : Int)).toNat =
      s.length - n - k by omega,
    show ((s.length : Int) + (r.length : Int) - (k : Int)).toNat =
      s.length - k + r.length by omega,
    List.take_left]
  obtain ⟨z, hz⟩ := splice_core s r n k hnkL
  refine ⟨_, rfl, ?_, ?_, ?_⟩
  · rw [hz, List.take_left' ?_]
    rw [List.length_append, List.length_append, List.length_take,
      Nat.min_eq_left (by omega), List.length_drop]
    omega
  · rw [hz]
    have hC : NoNul (s.take n ++ r ++ s.drop (n + k)) := by
      intro x hx
      rcases List.mem_append.1 hx with hx | hx
      · rcases List.mem_append.1 hx with hx | hx
        · exact hs x (List.take_subset n s hx)
        · exact hr x hx
      · exact hs x (List.drop_subset (n + k) s hx)
    rw [strlen_prefix_nul _ z hC, List.length_append, List.length_append,
      List.length_take, Nat.min_eq_left (by omega), List.length_drop]
    omega
  · rw [hz]
    have hClen : (s.take n ++ r ++ s.drop (n + k)).length =
        s.length - k + r.length := by
      rw [List.length_append, List.length_append, List.length_take,
        Nat.min_eq_left (by omega), List.length_drop]
      omega
    rw [← hClen, getD_append_len]

theorem c_string_insert_ok_witness :
    ∃ out,
      c_string_insert ([104, 101, 108, 108, 111] ++ [0]) 1 2
          ([88, 89, 90] ++ [0]) = some out ∧
      out.take 6 = [104, 88, 89, 90, 108, 111] ∧
      strlen out = 6 ∧
      out.getD 6 1 = 0 :=
  c_string_insert_ok [104, 101, 108, 108, 111] [88, 89, 90] 1 2
    (by decide) (by decide) (by decide) (by decide) (by decide)
